import Mathlib

/-!
Verification of the structural value-equality and tagged-variant layer
documented by this repository (the `Data` module: `struct`, `tuple`, `array`,
`case`, `tagged`, `taggedEnum` with `$is`/`$match`), together with the
sequential-errors example program.  The repository ships documentation and
example snippets rather than the module's implementation, so the operations
below are modelled from the specification's contract and the documented
behaviour, and the claims are settled against that model.
-/

mutual

/-- Modelled from the spec: the dynamic values handled by the `Data` module
(its implementation is not part of the repository).  A value is a string, a
number, a plain (unwrapped) record or sequence, or a `Data`-wrapped
structural record (`struct`/`case`/`tagged` output) or structural sequence
(`tuple`/`array` output).  Plain and wrapped composites are distinct
constructors because the spec requires equality to distinguish wrapped from
unwrapped values. -/
inductive Value where
  | str : String → Value
  | num : Int → Value
  | plainRec : Fields → Value
  | plainArr : Elems → Value
  | struct : Fields → Value
  | arr : Elems → Value

/-- The field list of a record value: names paired with values. -/
inductive Fields where
  | fnil : Fields
  | fcons : String → Value → Fields → Fields

/-- The element list of a sequence value. -/
inductive Elems where
  | enil : Elems
  | econs : Value → Elems → Elems

end

/-- Build a field list from a Lean association list. -/
def Fields.ofList : List (String × Value) → Fields
  | [] => Fields.fnil
  | p :: rest => Fields.fcons p.1 p.2 (Fields.ofList rest)

/-- View a field list as a Lean association list. -/
def Fields.toList : Fields → List (String × Value)
  | Fields.fnil => []
  | Fields.fcons k v rest => (k, v) :: Fields.toList rest

/-- Build an element list from a Lean list. -/
def Elems.ofList : List Value → Elems
  | [] => Elems.enil
  | x :: rest => Elems.econs x (Elems.ofList rest)

/-- View an element list as a Lean list. -/
def Elems.toList : Elems → List Value
  | Elems.enil => []
  | Elems.econs x rest => x :: Elems.toList rest

/-- Number of fields of a record. -/
def lenF : Fields → Nat
  | Fields.fnil => 0
  | Fields.fcons _ _ rest => lenF rest + 1

/-- First-match lookup of a field by name, modelling JavaScript property
access `o[key]` on a record. -/
def lookupF (k : String) : Fields → Option Value
  | Fields.fnil => none
  | Fields.fcons k2 w rest => if k2 == k then some w else lookupF k rest

/-- Whether all field names of a record are distinct (always true of records
coming from JavaScript objects). -/
def nodupKeysF : Fields → Bool
  | Fields.fnil => true
  | Fields.fcons k _ rest => !(lookupF k rest).isSome && nodupKeysF rest

/-- Field names of a Lean association list, in order. -/
def keysOf (fs : List (String × Value)) : List String :=
  fs.map Prod.fst

/-- First-match lookup of a field by name in a Lean association list. -/
def lookupFirst (k : String) : List (String × Value) → Option Value
  | [] => none
  | q :: rest => if q.1 == k then some q.2 else lookupFirst k rest

/-- Remove every field with the given name. -/
def eraseKeyAll (k : String) : List (String × Value) → List (String × Value)
  | [] => []
  | q :: rest => if q.1 == k then eraseKeyAll k rest else q :: eraseKeyAll k rest

/-- Overwrite (or add) the field `k` with value `v`, modelling the
JavaScript assignment `o[k] = v`. -/
def setKey (fs : List (String × Value)) (k : String) (v : Value) :
    List (String × Value) :=
  eraseKeyAll k fs ++ [(k, v)]

mutual

/-- Modelled from the spec: the generated structural-equality trait
(`Equal.equals`; the trait implementation is not part of the repository).
Wrapped records are equal iff they have the same number of fields and every
field of the first is mapped by the second to a recursively equal value;
wrapped sequences are equal iff they are pairwise recursively equal; a
wrapped value is never equal to a plain one; plain composites fall back to
deep equality. -/
def equalsV : Value → Value → Bool
  | Value.str s, Value.str t => s == t
  | Value.num a, Value.num b => a == b
  | Value.struct fs, Value.struct gs => (lenF fs == lenF gs) && eqFieldsIn fs gs
  | Value.plainRec fs, Value.plainRec gs =>
    (lenF fs == lenF gs) && eqFieldsIn fs gs
  | Value.arr xs, Value.arr ys => eqElemsIn xs ys
  | Value.plainArr xs, Value.plainArr ys => eqElemsIn xs ys
  | _, _ => false

/-- Every field of the first record is mapped by the second record to a
recursively equal value. -/
def eqFieldsIn : Fields → Fields → Bool
  | Fields.fnil, _ => true
  | Fields.fcons k v rest, gs =>
    (match lookupF k gs with
     | some u => equalsV v u
     | none => false) &&
    eqFieldsIn rest gs

/-- Pairwise recursive equality of sequences, positional and
length-sensitive. -/
def eqElemsIn : Elems → Elems → Bool
  | Elems.enil, Elems.enil => true
  | Elems.econs x xs, Elems.econs y ys => equalsV x y && eqElemsIn xs ys
  | _, _ => false

end

/-- The structural-equality check performed for one field: look the name up
in the other record and compare the values. -/
def lookupEqL (k : String) (v : Value) (gs : List (String × Value)) : Bool :=
  match lookupFirst k gs with
  | some u => equalsV v u
  | none => false

/-- Pairwise recursive equality of Lean lists of values. -/
def eqElemsList : List Value → List Value → Bool
  | [], [] => true
  | x :: xs, y :: ys => equalsV x y && eqElemsList xs ys
  | _, _ => false

mutual

/-- Well-formedness: every record node has distinct field names, as is
automatic for values built from JavaScript objects. -/
def wfV : Value → Bool
  | Value.str _ => true
  | Value.num _ => true
  | Value.struct fs => nodupKeysF fs && wfFields fs
  | Value.plainRec fs => nodupKeysF fs && wfFields fs
  | Value.arr xs => wfElems xs
  | Value.plainArr xs => wfElems xs

/-- Well-formedness of every field value. -/
def wfFields : Fields → Bool
  | Fields.fnil => true
  | Fields.fcons _ v rest => wfV v && wfFields rest

/-- Well-formedness of every element. -/
def wfElems : Elems → Bool
  | Elems.enil => true
  | Elems.econs x rest => wfV x && wfElems rest

end

/-- Hash combination of two digests. -/
def combineH (a b : Nat) : Nat :=
  a * 31 + b

/-- Digest of a string. -/
def strHash (s : String) : Nat :=
  s.foldl (fun h c => combineH h c.toNat) 7

/-- Digest of a number. -/
def intHash (n : Int) : Nat :=
  2 * n.natAbs + (if n < 0 then 1 else 0)

mutual

/-- Modelled from the spec: the generated structural `Hash` trait (its
implementation is not part of the repository).  Record digests combine the
per-field digests with an order-insensitive sum, so that hashing agrees
with the order-insensitive structural equality; sequence digests fold in
order. -/
def hashV : Value → Nat
  | Value.str s => combineH 2 (strHash s)
  | Value.num a => combineH 3 (intHash a)
  | Value.struct fs => combineH 5 (fieldsHash fs)
  | Value.plainRec fs => combineH 7 (fieldsHash fs)
  | Value.arr xs => combineH 11 (elemsHash xs)
  | Value.plainArr xs => combineH 13 (elemsHash xs)

/-- Order-insensitive digest of a record's fields. -/
def fieldsHash : Fields → Nat
  | Fields.fnil => 0
  | Fields.fcons k v rest => combineH (strHash k) (hashV v) + fieldsHash rest

/-- Order-sensitive digest of a sequence's elements. -/
def elemsHash : Elems → Nat
  | Elems.enil => 17
  | Elems.econs x rest => combineH (hashV x) (elemsHash rest)

end

/-- Digest contributed by one record field. -/
def entryHashV (p : String × Value) : Nat :=
  combineH (strHash p.1) (hashV p.2)

/-- Modelled from the spec: `Data.struct` wraps a record as an immutable,
structurally-comparable value (the implementation is not part of the
repository). -/
def Data.struct (fields : List (String × Value)) : Value :=
  Value.struct (Fields.ofList fields)

/-- Modelled from the spec: `Data.tuple` wraps an ordered sequence of
values; equality is positional and length-sensitive. -/
def Data.tuple (elements : List Value) : Value :=
  Value.arr (Elems.ofList elements)

/-- Modelled from the spec: `Data.array` wraps a sequence where element
order matters. -/
def Data.array (elements : List Value) : Value :=
  Value.arr (Elems.ofList elements)

/-- Modelled from the spec: the constructor returned by `Data.case()`; it
produces a structurally-comparable record instance from the given fields,
with no implicit fields added. -/
def Data.mkCase (fields : List (String × Value)) : Value :=
  Value.struct (Fields.ofList fields)

/-- Modelled from the spec: the constructor returned by
`Data.tagged(label)`; it injects the fixed discriminant `label` under the
conventional field name `_tag` into every produced instance. -/
def Data.tagged (label : String) (fields : List (String × Value)) : Value :=
  Value.struct (Fields.ofList (setKey fields "_tag" (Value.str label)))

/-- A plain (unwrapped) JavaScript record with the given fields. -/
def plainRecOf (fields : List (String × Value)) : Value :=
  Value.plainRec (Fields.ofList fields)

/-- A plain (unwrapped) JavaScript array with the given elements. -/
def plainArrOf (elements : List Value) : Value :=
  Value.plainArr (Elems.ofList elements)

/-- The field list of a wrapped or plain record value: destructuring an
instance. -/
def fieldsOfValue : Value → List (String × Value)
  | Value.struct fs => fs.toList
  | Value.plainRec fs => fs.toList
  | _ => []

/-- The discriminant of an instance: the string stored in its `_tag` field,
modelling the JavaScript read `u._tag`. -/
def getTag (v : Value) : Option String :=
  match lookupFirst "_tag" (fieldsOfValue v) with
  | some (Value.str t) => some t
  | _ => none

/-- Modelled from the spec: the `$is(label)` type-guard predicate returned
by `Data.taggedEnum` (the implementation is not part of the repository); it
tests whether an instance's discriminant equals `label`. -/
def TaggedEnum.is (label : String) (v : Value) : Bool :=
  getTag v == some label

/-- Find the handler registered for a label. -/
def findHandler {α : Type} (handlers : List (String × (Value → α)))
    (label : String) : Option (Value → α) :=
  match handlers with
  | [] => none
  | q :: rest => if q.1 == label then some q.2 else findHandler rest label

/-- The construction-time failure of an exhaustive dispatcher. -/
inductive MatchError where
  | IncompleteMatch : String → MatchError

/-- The dispatcher over a handler record: read the instance's discriminant
and apply the matching handler to the instance. -/
def dispatchOf {α : Type} (handlers : List (String × (Value → α))) :
    Value → Option α := fun v =>
  match getTag v with
  | some t =>
    match findHandler handlers t with
    | some h => some (h v)
    | none => none
  | none => none

/-- Modelled from the spec: the `$match(handlers)` dispatcher builder
returned by `Data.taggedEnum` (the implementation is not part of the
repository).  It requires exactly one handler per declared label: if any
label of the union lacks a handler, construction fails immediately with
`IncompleteMatch`; otherwise it returns the dispatcher, which applies the
matching handler to the instance. -/
def TaggedEnum.matchOn {α : Type} (labels : List String)
    (handlers : List (String × (Value → α))) :
    Except MatchError (Value → Option α) :=
  match labels.find? (fun l => (findHandler handlers l).isNone) with
  | some l => Except.error (MatchError.IncompleteMatch l)
  | none => Except.ok (dispatchOf handlers)

/-- The claim hypothesis, in the spec's words: two field records are
structurally equal when they have the same field names (no duplicates) and
each name is mapped to recursively equal values. -/
def StructurallyEqualRecords (a b : List (String × Value)) : Prop :=
  (keysOf a).Nodup ∧ (keysOf b).Nodup ∧
  (∀ k ∈ keysOf a, k ∈ keysOf b) ∧ (∀ k ∈ keysOf b, k ∈ keysOf a) ∧
  (∀ p ∈ a, Option.all (fun u => equalsV p.2 u) (lookupFirst p.1 b) = true)

instance (a b : List (String × Value)) :
    Decidable (StructurallyEqualRecords a b) := by
  unfold StructurallyEqualRecords
  infer_instance

/-- Two field records differ at some field: some field of the first is
mapped by the second to a value that is not recursively equal. -/
def DiffersAtField (a b : List (String × Value)) : Prop :=
  ∃ p ∈ a, Option.any (fun u => !(equalsV p.2 u)) (lookupFirst p.1 b) = true

instance (a b : List (String × Value)) : Decidable (DiffersAtField a b) := by
  unfold DiffersAtField
  infer_instance

/-- The `alice` record of the documentation. -/
def aliceFields : List (String × Value) :=
  [("name", Value.str "Alice"), ("age", Value.num 30)]

/-- The `alice` record with its fields listed in the other order. -/
def aliceFieldsRev : List (String × Value) :=
  [("age", Value.num 30), ("name", Value.str "Alice")]

/-- The `bob` record of the documentation. -/
def bobFields : List (String × Value) :=
  [("name", Value.str "Bob"), ("age", Value.num 40)]

/-- The `{name: "Mike"}` payload of the documentation. -/
def mikeFields : List (String × Value) :=
  [("name", Value.str "Mike")]

/-- A handler record covering only the labels `A` and `B`. -/
def handlersAB : List (String × (Value → Value)) :=
  [("A", fun v => v), ("B", fun v => v)]

/-- A handler record covering the labels `A`, `B` and `C`. -/
def handlersABC : List (String × (Value → Value)) :=
  [("A", fun v => v), ("B", fun v => v), ("C", fun v => v)]

/-- Modelled from the spec: the failure causes of the ambient effect
runtime (the runtime is not part of the repository; the model follows the
documented output of `sequential-errors.ts`).  A cause is an expected
failure, a defect carrying a runtime-exception message, or the sequential
composition of two causes. -/
inductive Cause where
  | Fail : String → Cause
  | Die : String → Cause
  | Sequential : Cause → Cause → Cause

/-- The `_tag` of a cause, as printed by the example program. -/
def causeTag : Cause → String
  | Cause.Fail _ => "Fail"
  | Cause.Die _ => "Die"
  | Cause.Sequential _ _ => "Sequential"

/-- The rendered error messages of a cause, in order, as serialized in the
example program's output comment. -/
def causeErrors : Cause → List String
  | Cause.Fail e => ["Error: " ++ e]
  | Cause.Die m => ["RuntimeException: " ++ m]
  | Cause.Sequential c1 c2 => causeErrors c1 ++ causeErrors c2

/-- The result of running an effect to completion. -/
inductive RunExit where
  | Success : RunExit
  | Failure : Cause → RunExit

/-- Modelled from the spec: the fragment of the effect language used by the
example program (`Effect.fail`, `Effect.dieMessage`, `Effect.ensuring` and
a successful effect); the effect runtime is not part of the repository. -/
inductive Eff where
  | fail : String → Eff
  | dieMessage : String → Eff
  | succeedU : Eff
  | ensuring : Eff → Eff → Eff

/-- Modelled from the spec: running an effect to an exit, following the
documented output of `sequential-errors.ts`: a finalizer installed with
`ensuring` always runs, and when both the main effect and the finalizer
fail, the resulting cause is the sequential composition of the original
cause followed by the finalizer's cause. -/
def runExit : Eff → RunExit
  | Eff.fail e => RunExit.Failure (Cause.Fail e)
  | Eff.dieMessage m => RunExit.Failure (Cause.Die m)
  | Eff.succeedU => RunExit.Success
  | Eff.ensuring eff fin =>
    match runExit eff, runExit fin with
    | RunExit.Success, RunExit.Success => RunExit.Success
    | RunExit.Success, RunExit.Failure c2 => RunExit.Failure c2
    | RunExit.Failure c1, RunExit.Success => RunExit.Failure c1
    | RunExit.Failure c1, RunExit.Failure c2 =>
      RunExit.Failure (Cause.Sequential c1 c2)

/-- The example program: a failing effect with a dying finalizer. -/
def program : Eff :=
  Eff.ensuring (Eff.fail "Oh uh!") (Eff.dieMessage "Boom!")

theorem fieldsToList_ofList : ∀ (l : List (String × Value)),
    (Fields.ofList l).toList = l
  | [] => rfl
  | p :: rest => by
    simp [Fields.ofList, Fields.toList, fieldsToList_ofList rest]

theorem elemsToList_ofList : ∀ (l : List Value), (Elems.ofList l).toList = l
  | [] => rfl
  | x :: rest => by
    simp [Elems.ofList, Elems.toList, elemsToList_ofList rest]

theorem lenF_toList : ∀ (fs : Fields), lenF fs = fs.toList.length
  | Fields.fnil => rfl
  | Fields.fcons _ _ rest => by
    simp [lenF, Fields.toList, lenF_toList rest]

theorem lookupF_toList : ∀ (fs : Fields) (k : String),
    lookupF k fs = lookupFirst k fs.toList
  | Fields.fnil, _ => rfl
  | Fields.fcons k2 w rest, k => by
    simp only [lookupF, Fields.toList, lookupFirst]
    by_cases h : k2 == k
    · simp [h]
    · simp [h, lookupF_toList rest k]

theorem eqFieldsIn_toList : ∀ (fs gs : Fields),
    eqFieldsIn fs gs = fs.toList.all fun p => lookupEqL p.1 p.2 gs.toList
  | Fields.fnil, _ => rfl
  | Fields.fcons k v rest, gs => by
    simp only [eqFieldsIn, Fields.toList, List.all_cons,
      eqFieldsIn_toList rest gs]
    have : (match lookupF k gs with
        | some u => equalsV v u
        | none => false) = lookupEqL k v gs.toList := by
      rw [lookupEqL, lookupF_toList]
    rw [this]

theorem eqElemsIn_toList : ∀ (xs ys : Elems),
    eqElemsIn xs ys = eqElemsList xs.toList ys.toList
  | Elems.enil, Elems.enil => rfl
  | Elems.enil, Elems.econs _ _ => rfl
  | Elems.econs _ _, Elems.enil => rfl
  | Elems.econs x xs, Elems.econs y ys => by
    simp [eqElemsIn, Elems.toList, eqElemsList, eqElemsIn_toList xs ys]

theorem lookupFirst_isSome_iff_mem_keys (k : String) :
    ∀ (l : List (String × Value)),
    (lookupFirst k l).isSome = true ↔ k ∈ keysOf l
  | [] => by simp [lookupFirst, keysOf]
  | q :: rest => by
    simp only [lookupFirst, keysOf, List.map_cons, List.mem_cons]
    by_cases h : q.1 = k
    · simp [h]
    · have hne : ¬k = q.1 := fun he => h he.symm
      simp [h, hne, lookupFirst_isSome_iff_mem_keys k rest, keysOf]

theorem lookupFirst_mem {k : String} :
    ∀ {l : List (String × Value)} {u : Value},
    lookupFirst k l = some u → (k, u) ∈ l
  | [], _, h => by simp [lookupFirst] at h
  | q :: rest, u, h => by
    simp only [lookupFirst] at h
    by_cases hq : q.1 == k
    · simp only [hq, if_true] at h
      have hk : q.1 = k := beq_iff_eq.mp hq
      have : q = (k, u) := by
        cases q
        simp_all
      simp [this]
    · simp only [hq, if_false] at h
      exact List.mem_cons_of_mem _ (lookupFirst_mem h)

theorem lookupFirst_eq_none_iff (k : String) :
    ∀ (l : List (String × Value)),
    lookupFirst k l = none ↔ k ∉ keysOf l := by
  intro l
  rw [← lookupFirst_isSome_iff_mem_keys]
  cases lookupFirst k l <;> simp

theorem lookupFirst_eq_of_mem_nodup {k : String} {v : Value} :
    ∀ {l : List (String × Value)}, (keysOf l).Nodup → (k, v) ∈ l →
    lookupFirst k l = some v
  | [], _, hm => by simp at hm
  | q :: rest, hnd, hm => by
    simp only [keysOf, List.map_cons, List.nodup_cons] at hnd
    rcases List.mem_cons.mp hm with h | h
    · simp [lookupFirst, ← h]
    · have hk : k ∈ keysOf rest := List.mem_map_of_mem Prod.fst h
      have hq : q.1 ≠ k := fun he => hnd.1 (he ▸ hk)
      simp only [lookupFirst, beq_iff_eq, hq, if_false]
      exact lookupFirst_eq_of_mem_nodup hnd.2 h

theorem lookupFirst_append_some {k : String} {u : Value}
    {l1 : List (String × Value)} (l2 : List (String × Value))
    (h : lookupFirst k l1 = some u) :
    lookupFirst k (l1 ++ l2) = some u := by
  induction l1 with
  | nil => simp [lookupFirst] at h
  | cons q rest ih =>
    simp only [lookupFirst, List.cons_append] at h ⊢
    by_cases hq : q.1 == k
    · simpa [hq] using h
    · simp only [hq, if_false] at h ⊢
      exact ih h

theorem lookupFirst_append_none {k : String}
    {l1 : List (String × Value)} (l2 : List (String × Value))
    (h : lookupFirst k l1 = none) :
    lookupFirst k (l1 ++ l2) = lookupFirst k l2 := by
  induction l1 with
  | nil => simp
  | cons q rest ih =>
    simp only [lookupFirst, List.cons_append] at h ⊢
    by_cases hq : q.1 == k
    · simp [hq] at h
    · simp only [hq, if_false] at h ⊢
      exact ih h

theorem lookupFirst_middle_ne {k' k : String} (hne : k' ≠ k) (u : Value) :
    ∀ (l1 l2 : List (String × Value)),
    lookupFirst k' (l1 ++ (k, u) :: l2) = lookupFirst k' (l1 ++ l2)
  | [], l2 => by
    have : ¬k = k' := fun h => hne h.symm
    simp [lookupFirst, this]
  | q :: rest, l2 => by
    simp only [List.cons_append, lookupFirst]
    by_cases hq : q.1 = k'
    · simp [hq]
    · simp [hq, lookupFirst_middle_ne hne u rest l2]

theorem lookup_split {k : String} :
    ∀ {l : List (String × Value)} {u : Value}, lookupFirst k l = some u →
    ∃ l1 l2, l = l1 ++ (k, u) :: l2 ∧ lookupFirst k l1 = none
  | [], _, h => by simp [lookupFirst] at h
  | q :: rest, u, h => by
    simp only [lookupFirst] at h
    by_cases hq : q.1 == k
    · simp only [hq, if_true] at h
      refine ⟨[], rest, ?_, rfl⟩
      have : q = (k, u) := by
        have := beq_iff_eq.mp hq
        cases q
        simp_all
      simp [this]
    · simp only [hq, if_false] at h
      obtain ⟨l1, l2, hl, hn⟩ := lookup_split h
      refine ⟨q :: l1, l2, by simp [hl], ?_⟩
      simp [lookupFirst, hq, hn]

theorem eraseKeyAll_eq_self {k : String} :
    ∀ {l : List (String × Value)}, k ∉ keysOf l → eraseKeyAll k l = l
  | [], _ => rfl
  | q :: rest, h => by
    simp only [keysOf, List.map_cons, List.mem_cons, not_or] at h
    have hne : ¬q.1 = k := fun he => h.1 he.symm
    simp only [eraseKeyAll, hne, if_false, beq_iff_eq]
    rw [eraseKeyAll_eq_self h.2]

theorem lookupFirst_eraseKeyAll_self (k : String) :
    ∀ (l : List (String × Value)), lookupFirst k (eraseKeyAll k l) = none
  | [] => rfl
  | q :: rest => by
    simp only [eraseKeyAll]
    by_cases hq : q.1 == k
    · simp [hq, lookupFirst_eraseKeyAll_self k rest]
    · simp [hq, lookupFirst, lookupFirst_eraseKeyAll_self k rest]

theorem lookupFirst_eraseKeyAll_ne {k' k : String} (hne : k' ≠ k) :
    ∀ (l : List (String × Value)),
    lookupFirst k' (eraseKeyAll k l) = lookupFirst k' l
  | [] => rfl
  | q :: rest => by
    simp only [eraseKeyAll, lookupFirst]
    by_cases hq : q.1 = k
    · have hkk : ¬k = k' := fun h => hne h.symm
      simp [hq, hkk, lookupFirst, lookupFirst_eraseKeyAll_ne hne rest]
    · simp [hq, lookupFirst, lookupFirst_eraseKeyAll_ne hne rest]

theorem mem_eraseKeyAll {p : String × Value} {k : String} :
    ∀ {l : List (String × Value)}, p ∈ eraseKeyAll k l → p ∈ l ∧ p.1 ≠ k
  | [], h => by simp [eraseKeyAll] at h
  | q :: rest, h => by
    simp only [eraseKeyAll] at h
    by_cases hq : q.1 = k
    · simp only [hq, beq_self_eq_true, if_true] at h
      have := mem_eraseKeyAll (l := rest) h
      exact ⟨List.mem_cons_of_mem _ this.1, this.2⟩
    · simp only [beq_iff_eq, hq, if_false, List.mem_cons] at h
      rcases h with h | h
      · subst h
        exact ⟨List.mem_cons_self _ _, hq⟩
      · have := mem_eraseKeyAll (l := rest) h
        exact ⟨List.mem_cons_of_mem _ this.1, this.2⟩

theorem lookupFirst_setKey_self (l : List (String × Value)) (k : String)
    (v : Value) : lookupFirst k (setKey l k v) = some v := by
  rw [setKey, lookupFirst_append_none _ (lookupFirst_eraseKeyAll_self k l)]
  simp [lookupFirst]

theorem lookupFirst_setKey_ne {k' k : String} (hne : k' ≠ k)
    (l : List (String × Value)) (v : Value) :
    lookupFirst k' (setKey l k v) = lookupFirst k' l := by
  rw [setKey]
  rcases hl : lookupFirst k' (eraseKeyAll k l) with _ | u
  · rw [lookupFirst_append_none _ hl]
    have hkk : ¬k = k' := fun h => hne h.symm
    simp only [lookupFirst, beq_iff_eq, hkk, if_false]
    rw [← lookupFirst_eraseKeyAll_ne hne l, hl]
  · rw [lookupFirst_append_some _ hl, ← lookupFirst_eraseKeyAll_ne hne l, hl]

theorem equalsV_struct (fs gs : Fields) :
    equalsV (Value.struct fs) (Value.struct gs) =
      ((fs.toList.length == gs.toList.length) &&
        fs.toList.all fun p => lookupEqL p.1 p.2 gs.toList) := by
  rw [show equalsV (Value.struct fs) (Value.struct gs) =
      ((lenF fs == lenF gs) && eqFieldsIn fs gs) from rfl,
    lenF_toList, lenF_toList, eqFieldsIn_toList]

theorem equalsV_plainRec (fs gs : Fields) :
    equalsV (Value.plainRec fs) (Value.plainRec gs) =
      ((fs.toList.length == gs.toList.length) &&
        fs.toList.all fun p => lookupEqL p.1 p.2 gs.toList) := by
  rw [show equalsV (Value.plainRec fs) (Value.plainRec gs) =
      ((lenF fs == lenF gs) && eqFieldsIn fs gs) from rfl,
    lenF_toList, lenF_toList, eqFieldsIn_toList]

theorem equalsV_arr (xs ys : Elems) :
    equalsV (Value.arr xs) (Value.arr ys) = eqElemsList xs.toList ys.toList := by
  rw [show equalsV (Value.arr xs) (Value.arr ys) = eqElemsIn xs ys from rfl,
    eqElemsIn_toList]

theorem equalsV_plainArr (xs ys : Elems) :
    equalsV (Value.plainArr xs) (Value.plainArr ys) =
      eqElemsList xs.toList ys.toList := by
  rw [show equalsV (Value.plainArr xs) (Value.plainArr ys) =
      eqElemsIn xs ys from rfl, eqElemsIn_toList]

theorem equalsV_structs_list (a b : List (String × Value)) :
    equalsV (Data.struct a) (Data.struct b) =
      ((a.length == b.length) && a.all fun p => lookupEqL p.1 p.2 b) := by
  rw [Data.struct, Data.struct, equalsV_struct, fieldsToList_ofList,
    fieldsToList_ofList]

theorem nodupKeysF_toList : ∀ (fs : Fields),
    nodupKeysF fs = true ↔ (keysOf fs.toList).Nodup
  | Fields.fnil => by simp [nodupKeysF, Fields.toList, keysOf]
  | Fields.fcons k v rest => by
    rw [show nodupKeysF (Fields.fcons k v rest) =
        (!(lookupF k rest).isSome && nodupKeysF rest) from rfl,
      Bool.and_eq_true, nodupKeysF_toList rest]
    have hmem : (lookupF k rest).isSome = true ↔ k ∈ keysOf rest.toList := by
      rw [lookupF_toList]
      exact lookupFirst_isSome_iff_mem_keys k rest.toList
    have hk : keysOf (Fields.fcons k v rest).toList =
        k :: keysOf rest.toList := by
      simp [Fields.toList, keysOf]
    rw [hk, List.nodup_cons]
    constructor
    · rintro ⟨h1, h2⟩
      refine ⟨fun hkm => ?_, h2⟩
      rw [← hmem] at hkm
      rw [hkm] at h1
      simp at h1
    · rintro ⟨h1, h2⟩
      refine ⟨?_, h2⟩
      have hf : (lookupF k rest).isSome = false := by
        rw [Bool.eq_false_iff]
        exact fun ht => h1 (hmem.mp ht)
      simp [hf]

theorem wfFields_toList : ∀ (fs : Fields),
    wfFields fs = true ↔ ∀ p ∈ fs.toList, wfV p.2 = true
  | Fields.fnil => by simp [wfFields, Fields.toList]
  | Fields.fcons k v rest => by
    simp [wfFields, Fields.toList, Bool.and_eq_true, wfFields_toList rest]

theorem wfElems_toList : ∀ (xs : Elems),
    wfElems xs = true ↔ ∀ x ∈ xs.toList, wfV x = true
  | Elems.enil => by simp [wfElems, Elems.toList]
  | Elems.econs x rest => by
    simp [wfElems, Elems.toList, Bool.and_eq_true, wfElems_toList rest]

theorem wfV_struct_iff (fs : Fields) :
    wfV (Value.struct fs) = true ↔
      (keysOf fs.toList).Nodup ∧ ∀ p ∈ fs.toList, wfV p.2 = true := by
  rw [show wfV (Value.struct fs) = (nodupKeysF fs && wfFields fs) from rfl,
    Bool.and_eq_true, nodupKeysF_toList, wfFields_toList]

theorem wfV_plainRec_iff (fs : Fields) :
    wfV (Value.plainRec fs) = true ↔
      (keysOf fs.toList).Nodup ∧ ∀ p ∈ fs.toList, wfV p.2 = true := by
  rw [show wfV (Value.plainRec fs) = (nodupKeysF fs && wfFields fs) from rfl,
    Bool.and_eq_true, nodupKeysF_toList, wfFields_toList]

theorem wfV_arr_iff (xs : Elems) :
    wfV (Value.arr xs) = true ↔ ∀ x ∈ xs.toList, wfV x = true := by
  rw [show wfV (Value.arr xs) = wfElems xs from rfl, wfElems_toList]

theorem wfV_plainArr_iff (xs : Elems) :
    wfV (Value.plainArr xs) = true ↔ ∀ x ∈ xs.toList, wfV x = true := by
  rw [show wfV (Value.plainArr xs) = wfElems xs from rfl, wfElems_toList]

theorem fieldsHash_toList : ∀ (fs : Fields),
    fieldsHash fs = (fs.toList.map entryHashV).sum
  | Fields.fnil => rfl
  | Fields.fcons k v rest => by
    simp [fieldsHash, Fields.toList, entryHashV, fieldsHash_toList rest]

theorem elemsHash_toList : ∀ (xs : Elems),
    elemsHash xs = (xs.toList.map hashV).foldr combineH 17
  | Elems.enil => rfl
  | Elems.econs x rest => by
    simp [elemsHash, Elems.toList, elemsHash_toList rest]

theorem hashV_struct (fs : Fields) :
    hashV (Value.struct fs) = combineH 5 ((fs.toList.map entryHashV).sum) := by
  rw [show hashV (Value.struct fs) = combineH 5 (fieldsHash fs) from rfl,
    fieldsHash_toList]

theorem hashV_plainRec (fs : Fields) :
    hashV (Value.plainRec fs) =
      combineH 7 ((fs.toList.map entryHashV).sum) := by
  rw [show hashV (Value.plainRec fs) = combineH 7 (fieldsHash fs) from rfl,
    fieldsHash_toList]

theorem hashV_arr (xs : Elems) :
    hashV (Value.arr xs) =
      combineH 11 ((xs.toList.map hashV).foldr combineH 17) := by
  rw [show hashV (Value.arr xs) = combineH 11 (elemsHash xs) from rfl,
    elemsHash_toList]

theorem hashV_plainArr (xs : Elems) :
    hashV (Value.plainArr xs) =
      combineH 13 ((xs.toList.map hashV).foldr combineH 17) := by
  rw [show hashV (Value.plainArr xs) = combineH 13 (elemsHash xs) from rfl,
    elemsHash_toList]

theorem sizeOf_snd_lt_of_mem_toListF :
    ∀ (fs : Fields) (p : String × Value), p ∈ fs.toList →
    sizeOf p.2 < sizeOf fs
  | Fields.fnil, p, hp => by simp [Fields.toList] at hp
  | Fields.fcons k v rest, p, hp => by
    rcases List.mem_cons.mp (by simpa [Fields.toList] using hp) with h | h
    · subst h
      simp [Fields.fcons.sizeOf_spec]
      omega
    · have := sizeOf_snd_lt_of_mem_toListF rest p h
      simp [Fields.fcons.sizeOf_spec]
      omega

theorem sizeOf_lt_of_mem_toListE :
    ∀ (xs : Elems) (x : Value), x ∈ xs.toList → sizeOf x < sizeOf xs
  | Elems.enil, x, hx => by simp [Elems.toList] at hx
  | Elems.econs y rest, x, hx => by
    rcases List.mem_cons.mp (by simpa [Elems.toList] using hx) with h | h
    · subst h
      simp [Elems.econs.sizeOf_spec]
      omega
    · have := sizeOf_lt_of_mem_toListE rest x h
      simp [Elems.econs.sizeOf_spec]
      omega

/-- Constructor discriminator, used to dispatch impossible cross-constructor
equalities. -/
def ctorIdx : Value → Nat
  | Value.str _ => 0
  | Value.num _ => 1
  | Value.plainRec _ => 2
  | Value.plainArr _ => 3
  | Value.struct _ => 4
  | Value.arr _ => 5

theorem ctorIdx_eq_of_equalsV (v w : Value) (h : equalsV v w = true) :
    ctorIdx v = ctorIdx w := by
  cases v <;> cases w <;> first | rfl | exact absurd h (by simp [equalsV])

theorem entriesPerm : ∀ (fs gs : List (String × Value)),
    (keysOf fs).Nodup → (keysOf gs).Nodup → fs.length = gs.length →
    (∀ p ∈ fs, ∃ u, lookupFirst p.1 gs = some u ∧ equalsV p.2 u = true) →
    (∀ p ∈ fs, ∀ u, lookupFirst p.1 gs = some u → equalsV p.2 u = true →
      hashV p.2 = hashV u) →
    (fs.map entryHashV).Perm (gs.map entryHashV)
  | [], gs, _, _, hlen, _, _ => by
    have : gs = [] := List.length_eq_zero.mp hlen.symm
    subst this
    simp
  | p :: rest, gs, dfs, dgs, hlen, hmatch, hhash => by
    obtain ⟨u, hu, hequ⟩ := hmatch p (List.mem_cons_self p rest)
    have hhv : hashV p.2 = hashV u :=
      hhash p (List.mem_cons_self p rest) u hu hequ
    obtain ⟨gs1, gs2, hgs, hnone⟩ := lookup_split hu
    subst hgs
    have hkeys : keysOf (gs1 ++ (p.1, u) :: gs2) =
        keysOf gs1 ++ p.1 :: keysOf gs2 := by
      simp [keysOf]
    have hdgs' : (keysOf (gs1 ++ gs2)).Nodup := by
      have hsub : List.Sublist (keysOf (gs1 ++ gs2))
          (keysOf (gs1 ++ (p.1, u) :: gs2)) := by
        rw [hkeys]
        simp only [keysOf, List.map_append]
        exact (List.sublist_cons_self _ _).append_left _
      exact dgs.sublist hsub
    have hdfs0 : p.1 ∉ keysOf rest ∧ (keysOf rest).Nodup := by
      have : keysOf (p :: rest) = p.1 :: keysOf rest := by simp [keysOf]
      rw [this] at dfs
      exact List.nodup_cons.mp dfs
    have hlen' : rest.length = (gs1 ++ gs2).length := by
      simp only [List.length_cons, List.length_append] at hlen ⊢
      omega
    have htrans : ∀ q ∈ rest, lookupFirst q.1 (gs1 ++ gs2) =
        lookupFirst q.1 (gs1 ++ (p.1, u) :: gs2) := by
      intro q hq
      have hqk : q.1 ≠ p.1 := by
        intro he
        exact hdfs0.1 (he ▸ List.mem_map_of_mem Prod.fst hq)
      rw [lookupFirst_middle_ne hqk u gs1 gs2]
    have hmatch' : ∀ q ∈ rest, ∃ u', lookupFirst q.1 (gs1 ++ gs2) = some u' ∧
        equalsV q.2 u' = true := by
      intro q hq
      obtain ⟨u', hu', he'⟩ := hmatch q (List.mem_cons_of_mem p hq)
      exact ⟨u', by rw [htrans q hq]; exact hu', he'⟩
    have hhash' : ∀ q ∈ rest, ∀ u', lookupFirst q.1 (gs1 ++ gs2) = some u' →
        equalsV q.2 u' = true → hashV q.2 = hashV u' := by
      intro q hq u' hu' he'
      exact hhash q (List.mem_cons_of_mem p hq) u'
        (by rw [← htrans q hq]; exact hu') he'
    have ih := entriesPerm rest (gs1 ++ gs2) hdfs0.2 hdgs' hlen' hmatch' hhash'
    have hhead : entryHashV p = entryHashV (p.1, u) := by
      simp [entryHashV, hhv]
    have step1 : List.Perm (List.map entryHashV (p :: rest))
        (entryHashV (p.1, u) :: List.map entryHashV (gs1 ++ gs2)) := by
      rw [List.map_cons, hhead]
      exact ih.cons _
    have step2 : List.Perm
        (entryHashV (p.1, u) :: List.map entryHashV (gs1 ++ gs2))
        (List.map entryHashV (gs1 ++ (p.1, u) :: gs2)) := by
      simp only [List.map_append, List.map_cons]
      exact List.perm_middle.symm
    exact step1.trans step2

theorem eqElemsList_map_hash : ∀ (xs ys : List Value),
    (∀ x ∈ xs, ∀ y ∈ ys, equalsV x y = true → hashV x = hashV y) →
    eqElemsList xs ys = true → xs.map hashV = ys.map hashV
  | [], [], _, _ => rfl
  | [], _ :: _, _, h => by simp [eqElemsList] at h
  | _ :: _, [], _, h => by simp [eqElemsList] at h
  | x :: xs, y :: ys, hIH, h => by
    simp only [eqElemsList, Bool.and_eq_true] at h
    have h1 : hashV x = hashV y :=
      hIH x (List.mem_cons_self x xs) y (List.mem_cons_self y ys) h.1
    have h2 := eqElemsList_map_hash xs ys
      (fun a ha b hb => hIH a (List.mem_cons_of_mem x ha)
        b (List.mem_cons_of_mem y hb)) h.2
    simp [h1, h2]

theorem hashV_eq_of_equalsV (v w : Value) (hv : wfV v = true)
    (hw : wfV w = true) (h : equalsV v w = true) : hashV v = hashV w := by
  cases v <;> cases w <;>
    first
      | (have hcix := ctorIdx_eq_of_equalsV _ _ h
         simp [ctorIdx] at hcix
         done)
      | skip
  · rename_i s t
    have hst : (s == t) = true := h
    rw [beq_iff_eq.mp hst]
  · rename_i a b
    have hab : (a == b) = true := h
    rw [beq_iff_eq.mp hab]
  · rename_i fs gs
    rw [equalsV_plainRec] at h
    simp only [Bool.and_eq_true, beq_iff_eq, List.all_eq_true] at h
    rw [wfV_plainRec_iff] at hv hw
    have hmatch : ∀ p ∈ fs.toList, ∃ u,
        lookupFirst p.1 gs.toList = some u ∧ equalsV p.2 u = true := by
      intro p hp
      have hall := h.2 p hp
      rw [lookupEqL] at hall
      rcases hu : lookupFirst p.1 gs.toList with _ | u
      · rw [hu] at hall
        exact absurd hall (by simp)
      · rw [hu] at hall
        exact ⟨u, rfl, hall⟩
    have hhash : ∀ p ∈ fs.toList, ∀ u, lookupFirst p.1 gs.toList = some u →
        equalsV p.2 u = true → hashV p.2 = hashV u := by
      intro p hp u hu hequ
      exact hashV_eq_of_equalsV p.2 u (hv.2 p hp)
        (hw.2 (p.1, u) (lookupFirst_mem hu)) hequ
    have hperm := entriesPerm fs.toList gs.toList hv.1 hw.1 h.1 hmatch hhash
    rw [hashV_plainRec, hashV_plainRec, hperm.sum_eq]
  · rename_i xs ys
    rw [equalsV_plainArr] at h
    rw [wfV_plainArr_iff] at hv hw
    have helem : ∀ x ∈ xs.toList, ∀ y ∈ ys.toList, equalsV x y = true →
        hashV x = hashV y := by
      intro x hx y hy hxy
      exact hashV_eq_of_equalsV x y (hv x hx) (hw y hy) hxy
    have hmap := eqElemsList_map_hash xs.toList ys.toList helem h
    rw [hashV_plainArr, hashV_plainArr, hmap]
  · rename_i fs gs
    rw [equalsV_struct] at h
    simp only [Bool.and_eq_true, beq_iff_eq, List.all_eq_true] at h
    rw [wfV_struct_iff] at hv hw
    have hmatch : ∀ p ∈ fs.toList, ∃ u,
        lookupFirst p.1 gs.toList = some u ∧ equalsV p.2 u = true := by
      intro p hp
      have hall := h.2 p hp
      rw [lookupEqL] at hall
      rcases hu : lookupFirst p.1 gs.toList with _ | u
      · rw [hu] at hall
        exact absurd hall (by simp)
      · rw [hu] at hall
        exact ⟨u, rfl, hall⟩
    have hhash : ∀ p ∈ fs.toList, ∀ u, lookupFirst p.1 gs.toList = some u →
        equalsV p.2 u = true → hashV p.2 = hashV u := by
      intro p hp u hu hequ
      exact hashV_eq_of_equalsV p.2 u (hv.2 p hp)
        (hw.2 (p.1, u) (lookupFirst_mem hu)) hequ
    have hperm := entriesPerm fs.toList gs.toList hv.1 hw.1 h.1 hmatch hhash
    rw [hashV_struct, hashV_struct, hperm.sum_eq]
  · rename_i xs ys
    rw [equalsV_arr] at h
    rw [wfV_arr_iff] at hv hw
    have helem : ∀ x ∈ xs.toList, ∀ y ∈ ys.toList, equalsV x y = true →
        hashV x = hashV y := by
      intro x hx y hy hxy
      exact hashV_eq_of_equalsV x y (hv x hx) (hw y hy) hxy
    have hmap := eqElemsList_map_hash xs.toList ys.toList helem h
    rw [hashV_arr, hashV_arr, hmap]
termination_by sizeOf v
decreasing_by
  all_goals subst_vars
  all_goals simp only [Value.struct.sizeOf_spec, Value.arr.sizeOf_spec,
    Value.plainRec.sizeOf_spec, Value.plainArr.sizeOf_spec]
  all_goals first
    | (have hlt := sizeOf_snd_lt_of_mem_toListF _ _ hp; omega)
    | (have hlt := sizeOf_lt_of_mem_toListE _ _ hx; omega)

theorem equalsV_struct_of_SER (a b : List (String × Value))
    (h : StructurallyEqualRecords a b) :
    equalsV (Data.struct a) (Data.struct b) = true := by
  obtain ⟨nda, ndb, hab, hba, hvals⟩ := h
  rw [equalsV_structs_list]
  simp only [Bool.and_eq_true, beq_iff_eq, List.all_eq_true]
  constructor
  · have hperm : (keysOf a).Perm (keysOf b) :=
      (List.perm_ext_iff_of_nodup nda ndb).mpr
        (fun k => ⟨fun hk => hab k hk, fun hk => hba k hk⟩)
    have := hperm.length_eq
    simpa [keysOf] using this
  · intro p hp
    have hkmem : p.1 ∈ keysOf b := hab p.1 (List.mem_map_of_mem Prod.fst hp)
    have hsome : (lookupFirst p.1 b).isSome = true :=
      (lookupFirst_isSome_iff_mem_keys _ _).mpr hkmem
    rcases hu : lookupFirst p.1 b with _ | u
    · rw [hu] at hsome
      simp at hsome
    · have hv := hvals p hp
      rw [hu] at hv
      rw [lookupEqL, hu]
      exact hv

theorem equalsV_struct_false_of_differs (a b : List (String × Value))
    (h : DiffersAtField a b) :
    equalsV (Data.struct a) (Data.struct b) = false := by
  obtain ⟨p, hp, hany⟩ := h
  rcases hu : lookupFirst p.1 b with _ | u
  · rw [hu] at hany
    simp [Option.any] at hany
  · rw [hu] at hany
    have hfalse : equalsV p.2 u = false := by
      have : (!(equalsV p.2 u)) = true := hany
      simpa using this
    cases hcase : equalsV (Data.struct a) (Data.struct b)
    · rfl
    · exfalso
      rw [equalsV_structs_list] at hcase
      simp only [Bool.and_eq_true, List.all_eq_true] at hcase
      have htrue := hcase.2 p hp
      rw [lookupEqL, hu] at htrue
      have htrue' : equalsV p.2 u = true := htrue
      rw [htrue'] at hfalse
      exact Bool.noConfusion hfalse

theorem getTag_tagged (label : String) (fs : List (String × Value)) :
    getTag (Data.tagged label fs) = some label := by
  have hfields : fieldsOfValue (Data.tagged label fs) =
      setKey fs "_tag" (Value.str label) := by
    rw [Data.tagged, show fieldsOfValue
        (Value.struct (Fields.ofList (setKey fs "_tag" (Value.str label)))) =
        (Fields.ofList (setKey fs "_tag" (Value.str label))).toList from rfl,
      fieldsToList_ofList]
  rw [getTag, hfields, lookupFirst_setKey_self]

theorem tag_eq_of_equalsV_tagged (l1 l2 : String)
    (p1 p2 : List (String × Value))
    (h : equalsV (Data.tagged l1 p1) (Data.tagged l2 p2) = true) :
    l1 = l2 := by
  rw [Data.tagged, Data.tagged, equalsV_struct, fieldsToList_ofList,
    fieldsToList_ofList] at h
  simp only [Bool.and_eq_true, List.all_eq_true] at h
  have hmem : ("_tag", Value.str l1) ∈ setKey p1 "_tag" (Value.str l1) := by
    rw [setKey]
    exact List.mem_append_right _ (List.mem_singleton.mpr rfl)
  have htag := h.2 _ hmem
  simp only [lookupEqL, lookupFirst_setKey_self] at htag
  have : (l1 == l2) = true := htag
  exact beq_iff_eq.mp this

/-- Claim C1: for every tagged-union definition and every handler record
passed to the `$match` builder that is missing a handler for at least one
declared label, constructing the dispatcher fails immediately at
construction time with an `IncompleteMatch` error; when construction
succeeds, dispatch on every declared label's instances succeeds by applying
the registered handler, so the failure is never deferred to dispatch
time. -/
theorem matchOn_incompleteMatch_at_construction {α : Type}
    (labels : List String) (handlers : List (String × (Value → α))) :
    ((∃ l ∈ labels, findHandler handlers l = none) →
      ∃ l ∈ labels, findHandler handlers l = none ∧
        TaggedEnum.matchOn labels handlers =
          Except.error (MatchError.IncompleteMatch l)) ∧
    (∀ f, TaggedEnum.matchOn labels handlers = Except.ok f →
      ∀ l ∈ labels, ∃ h2, findHandler handlers l = some h2 ∧
        ∀ fs, f (Data.tagged l fs) = some (h2 (Data.tagged l fs))) := by
  constructor
  · intro hex
    rcases hfind : labels.find? (fun l => (findHandler handlers l).isNone)
      with _ | l0
    · exfalso
      obtain ⟨l, hl, hnone⟩ := hex
      have := List.find?_eq_none.mp hfind l hl
      apply this
      simp [hnone]
    · have hl0mem := List.mem_of_find?_eq_some hfind
      have hl0p := List.find?_some hfind
      have hl0none : findHandler handlers l0 = none :=
        Option.isNone_iff_eq_none.mp hl0p
      refine ⟨l0, hl0mem, hl0none, ?_⟩
      rw [TaggedEnum.matchOn, hfind]
  · intro f hok l hl
    rcases hfind : labels.find? (fun l => (findHandler handlers l).isNone)
      with _ | l0
    · rw [TaggedEnum.matchOn, hfind] at hok
      injection hok with hf
      have hnotnone := List.find?_eq_none.mp hfind l hl
      rcases hh : findHandler handlers l with _ | h2
      · exfalso
        apply hnotnone
        simp [hh]
      · refine ⟨h2, rfl, ?_⟩
        intro fs
        rw [← hf]
        simp only [dispatchOf, getTag_tagged, hh]
    · rw [TaggedEnum.matchOn, hfind] at hok
      exact Except.noConfusion hok

theorem matchOn_incompleteMatch_at_construction_witness :
    (∃ l ∈ ["A", "B", "C"], findHandler handlersAB l = none ∧
      TaggedEnum.matchOn ["A", "B", "C"] handlersAB =
        Except.error (MatchError.IncompleteMatch l)) ∧
    (∃ h2, findHandler handlersABC "C" = some h2 ∧
      ∀ fs, dispatchOf handlersABC (Data.tagged "C" fs) =
        some (h2 (Data.tagged "C" fs))) :=
  ⟨(matchOn_incompleteMatch_at_construction ["A", "B", "C"] handlersAB).1
      ⟨"C", by simp, rfl⟩,
    (matchOn_incompleteMatch_at_construction ["A", "B", "C"] handlersABC).2
      (dispatchOf handlersABC) rfl "C" (by simp)⟩

/-- Claim C2: for every pair of field records that are structurally equal
(same field names mapped to recursively equal values, regardless of order
or identity), `equals(struct(a), struct(b))` returns `true`; and for
records differing in some field value it returns `false`. -/
theorem data_struct_equals_spec (a b : List (String × Value)) :
    (StructurallyEqualRecords a b →
      equalsV (Data.struct a) (Data.struct b) = true) ∧
    (DiffersAtField a b →
      equalsV (Data.struct a) (Data.struct b) = false) :=
  ⟨equalsV_struct_of_SER a b, equalsV_struct_false_of_differs a b⟩

theorem data_struct_equals_spec_witness :
    equalsV (Data.struct aliceFields) (Data.struct aliceFieldsRev) = true ∧
    equalsV (Data.struct aliceFields) (Data.struct bobFields) = false :=
  ⟨(data_struct_equals_spec aliceFields aliceFieldsRev).1 (by decide),
    (data_struct_equals_spec aliceFields bobFields).2 (by decide)⟩

/-- Claim C3: for every pair of structurally equal field records, the hash
of `struct(a)` equals the hash of `struct(b)`; and hashing is consistent
with structural equality for all produced (well-formed) values. -/
theorem data_hash_respects_equality :
    (∀ a b, StructurallyEqualRecords a b →
      (∀ p ∈ a, wfV p.2 = true) → (∀ p ∈ b, wfV p.2 = true) →
      hashV (Data.struct a) = hashV (Data.struct b)) ∧
    (∀ v w, wfV v = true → wfV w = true → equalsV v w = true →
      hashV v = hashV w) := by
  constructor
  · intro a b hser ha hb
    apply hashV_eq_of_equalsV
    · rw [Data.struct, wfV_struct_iff, fieldsToList_ofList]
      exact ⟨hser.1, ha⟩
    · rw [Data.struct, wfV_struct_iff, fieldsToList_ofList]
      exact ⟨hser.2.1, hb⟩
    · exact equalsV_struct_of_SER a b hser
  · exact fun v w hv hw h => hashV_eq_of_equalsV v w hv hw h

theorem data_hash_respects_equality_witness :
    hashV (Data.struct aliceFields) = hashV (Data.struct aliceFieldsRev) ∧
    hashV (Data.tuple [Value.str "x"]) = hashV (Data.tuple [Value.str "x"]) :=
  ⟨(data_hash_respects_equality).1 aliceFields aliceFieldsRev
      (by decide) (by decide) (by decide),
    (data_hash_respects_equality).2 (Data.tuple [Value.str "x"])
      (Data.tuple [Value.str "x"]) (by decide) (by decide) (by decide)⟩

/-- Claim C4: two tagged-variant instances are equal only if their
discriminants match and their payload fields are recursively equal;
instances with different discriminants are never equal. -/
theorem tagged_equal_only_if_same_tag (l1 l2 : String)
    (p1 p2 : List (String × Value)) :
    (equalsV (Data.tagged l1 p1) (Data.tagged l2 p2) = true →
      l1 = l2 ∧ ∀ q ∈ eraseKeyAll "_tag" p1,
        Option.all (fun u => equalsV q.2 u)
          (lookupFirst q.1 (eraseKeyAll "_tag" p2)) = true) ∧
    (l1 ≠ l2 → equalsV (Data.tagged l1 p1) (Data.tagged l2 p2) = false) := by
  constructor
  · intro h
    refine ⟨tag_eq_of_equalsV_tagged l1 l2 p1 p2 h, ?_⟩
    rw [Data.tagged, Data.tagged, equalsV_struct, fieldsToList_ofList,
      fieldsToList_ofList] at h
    simp only [Bool.and_eq_true, List.all_eq_true] at h
    intro q hq
    have hqmem : q ∈ setKey p1 "_tag" (Value.str l1) := by
      rw [setKey]
      exact List.mem_append_left _ hq
    have hqne : q.1 ≠ "_tag" := (mem_eraseKeyAll hq).2
    have hlk : lookupFirst q.1 (eraseKeyAll "_tag" p2) =
        lookupFirst q.1 (setKey p2 "_tag" (Value.str l2)) := by
      rw [lookupFirst_eraseKeyAll_ne hqne, lookupFirst_setKey_ne hqne]
    have hall := h.2 q hqmem
    rw [hlk]
    rcases hu : lookupFirst q.1 (setKey p2 "_tag" (Value.str l2)) with _ | u
    · rw [lookupEqL, hu] at hall
      exact absurd hall (by simp)
    · simp only [lookupEqL, hu] at hall
      exact hall
  · intro hne
    cases hcase : equalsV (Data.tagged l1 p1) (Data.tagged l2 p2)
    · rfl
    · exact absurd (tag_eq_of_equalsV_tagged _ _ _ _ hcase) hne

theorem tagged_equal_only_if_same_tag_witness :
    ("Person" = "Person" ∧ ∀ q ∈ eraseKeyAll "_tag" mikeFields,
      Option.all (fun u => equalsV q.2 u)
        (lookupFirst q.1 (eraseKeyAll "_tag" mikeFields)) = true) ∧
    equalsV (Data.tagged "A" mikeFields) (Data.tagged "B" mikeFields) =
      false :=
  ⟨(tagged_equal_only_if_same_tag "Person" "Person" mikeFields mikeFields).1
      (by decide),
    (tagged_equal_only_if_same_tag "A" "B" mikeFields mikeFields).2
      (by decide)⟩

/-- Claim C5: for every label and payload record, the constructor returned
by `tagged(label)` produces an instance whose `_tag` field equals `label`,
without the caller passing the tag: the discriminant read from
`tagged("Person")({name: "Mike"})` is `"Person"` for any payload. -/
theorem tagged_injects_discriminant (label : String)
    (fields : List (String × Value)) :
    getTag (Data.tagged label fields) = some label :=
  getTag_tagged label fields

/-- Claim C6: the `$is(L)` predicate returns `true` exactly for instances
whose discriminant equals `L`, and `false` for every instance carrying any
other discriminant. -/
theorem is_true_iff_discriminant_matches (L : String) :
    (∀ l fields,
      (TaggedEnum.is L (Data.tagged l fields) = true ↔ l = L)) ∧
    (∀ v t, getTag v = some t → t ≠ L → TaggedEnum.is L v = false) := by
  constructor
  · intro l fields
    rw [TaggedEnum.is, getTag_tagged]
    constructor
    · intro h
      simpa using beq_iff_eq.mp h
    · intro h
      subst h
      simp
  · intro v t hv ht
    rw [TaggedEnum.is, hv, beq_eq_false_iff_ne]
    simp [ht]

theorem is_true_iff_discriminant_matches_witness :
    (TaggedEnum.is "Loading" (Data.tagged "Loading" []) = true ↔
      "Loading" = "Loading") ∧
    TaggedEnum.is "Loading"
      (Data.tagged "Success" [("data", Value.str "test")]) = false :=
  ⟨(is_true_iff_discriminant_matches "Loading").1 "Loading" [],
    (is_true_iff_discriminant_matches "Loading").2
      (Data.tagged "Success" [("data", Value.str "test")]) "Success"
      (getTag_tagged "Success" [("data", Value.str "test")]) (by decide)⟩

/-- Claim C7: constructing a tagged-union instance and then destructuring
it yields exactly the original payload fields plus the single discriminant
field, with no extra and no missing fields; and a `case()` constructor adds
no implicit fields at all. -/
theorem construct_destructure_roundtrip (label : String)
    (fields : List (String × Value)) :
    ("_tag" ∉ keysOf fields →
      fieldsOfValue (Data.tagged label fields) =
        fields ++ [("_tag", Value.str label)]) ∧
    fieldsOfValue (Data.mkCase fields) = fields := by
  constructor
  · intro h
    rw [Data.tagged, show fieldsOfValue
        (Value.struct (Fields.ofList (setKey fields "_tag"
          (Value.str label)))) =
        (Fields.ofList (setKey fields "_tag" (Value.str label))).toList
        from rfl,
      fieldsToList_ofList, setKey, eraseKeyAll_eq_self h]
  · rw [Data.mkCase, show fieldsOfValue (Value.struct (Fields.ofList fields)) =
      (Fields.ofList fields).toList from rfl, fieldsToList_ofList]

theorem construct_destructure_roundtrip_witness :
    fieldsOfValue (Data.tagged "Person" mikeFields) =
      mikeFields ++ [("_tag", Value.str "Person")] :=
  (construct_destructure_roundtrip "Person" mikeFields).1 (by decide)

/-- Claim C8: a wrapped `tuple(x, y)` is never equal to the plain
(unwrapped) sequence `[x, y]` under the library's equality, and the two are
distinct values; the same holds for `struct` versus a plain record with the
same fields. -/
theorem wrapped_never_equals_plain (x y : Value)
    (fs : List (String × Value)) :
    equalsV (Data.tuple [x, y]) (plainArrOf [x, y]) = false ∧
    Data.tuple [x, y] ≠ plainArrOf [x, y] ∧
    equalsV (Data.struct fs) (plainRecOf fs) = false ∧
    Data.struct fs ≠ plainRecOf fs := by
  refine ⟨rfl, ?_, rfl, ?_⟩
  · intro h
    rw [Data.tuple, plainArrOf] at h
    exact Value.noConfusion h
  · intro h
    rw [Data.struct, plainRecOf] at h
    exact Value.noConfusion h

theorem wrapped_never_equals_plain_witness :
    equalsV (Data.tuple [Value.str "Alice", Value.num 30])
      (plainArrOf [Value.str "Alice", Value.num 30]) = false ∧
    Data.tuple [Value.str "Alice", Value.num 30] ≠
      plainArrOf [Value.str "Alice", Value.num 30] ∧
    equalsV (Data.struct aliceFields) (plainRecOf aliceFields) = false ∧
    Data.struct aliceFields ≠ plainRecOf aliceFields :=
  wrapped_never_equals_plain (Value.str "Alice") (Value.num 30) aliceFields

/-- Claim C10: running the program built from `Effect.fail("Oh uh!")` with
an `Effect.ensuring` finalizer `Effect.dieMessage("Boom!")` yields a
failure exit whose cause is tagged `Sequential` and contains both errors in
order: the original failure first, then the finalizer defect second. -/
theorem sequential_errors_program_exit :
    runExit program = RunExit.Failure
      (Cause.Sequential (Cause.Fail "Oh uh!") (Cause.Die "Boom!")) ∧
    (∃ c, runExit program = RunExit.Failure c ∧ causeTag c = "Sequential" ∧
      causeErrors c = ["Error: Oh uh!", "RuntimeException: Boom!"]) :=
  ⟨rfl, ⟨Cause.Sequential (Cause.Fail "Oh uh!") (Cause.Die "Boom!"),
    rfl, rfl, rfl⟩⟩
